import Mathlib

/-!
# study.c: a separate-chaining hash table from string keys to `int` values

Shallow embedding of `src/study.c` (`createTable`, `hashFunction`, `set`, `get`, `freeTable`)
and proofs of its specification.

Conventions of the embedding.

* `int` and `unsigned int` are 32 bits wide.  Values of both types are carried as
  `Int`; every conversion the C expression performs is written out
  (`toInt`, `toUnsigned`), so wrap-around is explicit.
* A key is a C string: the bytes before the terminating NUL, none of them zero.
* Whether plain `char` is signed is implementation-defined (`CHAR_MIN` of
  `<limits.h>`); it is the parameter `charSigned` of the functions that read
  `key[i]` as a number.
* A `HashNode *` is either `NULL` or points to a node that holds its key copy,
  its value and its `next` pointer; the heap is exclusively owned, so the
  pointer graph is a tree and is represented by the inductive type `HashNode`.
* An operation returns `none` where the C program has no defined result
  (division by zero, access outside the bucket array) or leaves through `exit(1)`.
-/

namespace Study

/-! ## Machine integers -/

/-- Largest value of a 32-bit `int`. -/
def INT_MAX : Int := 2147483647

/-- Conversion of an integer result to `unsigned int`: reduction modulo 2^32. -/
def toUnsigned (x : Int) : Int := x % 4294967296

/-- Result of an `int` operation whose exact value is `x`, wrapped to the
two's-complement range `-2^31 .. 2^31 - 1`. -/
def toInt (x : Int) : Int := (x + 2147483648) % 4294967296 - 2147483648

/-! ## Data model -/

/-- One byte of a C string: any byte but the terminating NUL. -/
abbrev CChar := { b : Nat // 0 < b ∧ b < 256 }

/-- The contents of a NUL-terminated `char *` string (terminator not included). -/
abbrev Key := List CChar

/-- Value of `key[i]` after integer promotion: the byte itself where plain `char`
is unsigned, the byte read as a two's-complement 8-bit number where it is signed. -/
def charValue (charSigned : Bool) (c : CChar) : Int :=
  if charSigned && decide (128 ≤ c.val) then (c.val : Int) - 256 else (c.val : Int)

/-- A value of type `HashNode *`: `null`, or a pointer to a node with its
`key`, `value` and `next` fields. -/
inductive HashNode where
  | null : HashNode
  | mk (key : Key) (value : Int) (next : HashNode) : HashNode
deriving DecidableEq, Repr

/-- The `HashTable` structure: the `size` field and the array `table` of bucket heads. -/
structure HashTable where
  size : Int
  table : List HashNode
deriving DecidableEq, Repr

/-! ## createTable -/

/-- The loop `for (int i = 0; i < size; i++) ht->table[i] = NULL;` with `n`
iterations left and loop counter `i`. -/
def initBuckets : Nat → Nat → List HashNode → List HashNode
  | 0, _, table => table
  | n + 1, i, table => initBuckets n (i + 1) (table.set i HashNode.null)

/-- Function `createTable(size)`.  `block` is the storage `malloc(sizeof(HashNode*) * size)`
returns: `size` pointer slots whose contents are indeterminate.  When the
allocator does not deliver such a block the program leaves through `exit(1)`,
which is `none` here. -/
def createTable (size : Int) (block : List HashNode) : Option HashTable :=
  if (block.length : Int) = size then
    some { size := size, table := initBuckets size.toNat 0 block }
  else none

/-! ## hashFunction -/

/-- The loop of `hashFunction` over the remaining characters, with loop counter
`i` (an `int`) and accumulator `hash` (an `unsigned int`).  One iteration is
`hash = (hash + key[i] * i) % size`: the product is an `int`, it is converted
to `unsigned int` for the sum, the sum wraps modulo 2^32, and `size` is converted
to `unsigned int` for `%`.  A zero divisor has no defined result. -/
def hashLoop (charSigned : Bool) (size : Int) : Key → Int → Int → Option Int
  | [], _, hash => some hash
  | c :: rest, i, hash =>
    if toUnsigned size = 0 then none
    else
      hashLoop charSigned size rest (toInt (i + 1))
        (toUnsigned (hash + toUnsigned (toInt (charValue charSigned c * i))) % toUnsigned size)

/-- Function `hashFunction(key, size)`: the loop from `i = 0` and `hash = 0`. -/
def hashFunction (charSigned : Bool) (key : Key) (size : Int) : Option Int :=
  hashLoop charSigned size key 0 0

/-! ## set -/

/-- Function `set(ht, key, value)`: the new node holds a copy of the key (`strdup`), the
value, and the old bucket head as `next`; it becomes the bucket head. -/
def set (charSigned : Bool) (ht : HashTable) (key : Key) (value : Int) : Option HashTable :=
  match hashFunction charSigned key ht.size with
  | none => none
  | some index =>
    match ht.table[index.toNat]? with
    | none => none
    | some head =>
      some { size := ht.size, table := ht.table.set index.toNat (HashNode.mk key value head) }

/-! ## get -/

/-- Library function `strcmp(a, b)`: zero when the strings are equal, otherwise the difference of
the first pair of bytes that differ, compared as `unsigned char` (the end of a
string counts as byte 0). -/
def strcmp : Key → Key → Int
  | [], [] => 0
  | [], b :: _ => 0 - (b.val : Int)
  | a :: _, [] => (a.val : Int)
  | a :: as, b :: bs => if a.val = b.val then strcmp as bs else (a.val : Int) - (b.val : Int)

/-- The `while (node != NULL)` loop of `get`, with the final `return -1`. -/
def getLoop (key : Key) : HashNode → Int
  | HashNode.null => -1
  | HashNode.mk k v next => if strcmp k key = 0 then v else getLoop key next

/-- Function `get(ht, key)`: the chain of the bucket of `key` is searched for `key`. -/
def get (charSigned : Bool) (ht : HashTable) (key : Key) : Option Int :=
  match hashFunction charSigned key ht.size with
  | none => none
  | some index =>
    match ht.table[index.toNat]? with
    | none => none
    | some node => some (getLoop key node)

/-! ## Auxiliary notions used to state the properties -/

/-- A sequence of `set` calls, each on the table the previous one left. -/
def setAll (charSigned : Bool) : HashTable → List (Key × Int) → Option HashTable
  | ht, [] => some ht
  | ht, (k, v) :: ops =>
    match set charSigned ht k v with
    | none => none
    | some ht2 => setAll charSigned ht2 ops

/-- The entries of a chain, head first. -/
def entries : HashNode → List (Key × Int)
  | HashNode.null => []
  | HashNode.mk k v next => (k, v) :: entries next

/-- A usable table: `size` is a positive `int` and the bucket array has `size` slots. -/
def Usable (ht : HashTable) : Prop :=
  0 < ht.size ∧ ht.size ≤ INT_MAX ∧ (ht.table.length : Int) = ht.size

instance (ht : HashTable) : Decidable (Usable ht) := by
  unfold Usable; infer_instance

/-- The association-map reading of one `set`, applied to the result of a lookup. -/
def overwrite (k : Key) (acc : Option Int) (p : Key × Int) : Option Int :=
  if k = p.1 then some p.2 else acc

/-- The accumulation the specification describes, from position `pos` and running
hash `h`: each character replaces the running hash by
`(running_hash + character_code * position_index) mod capacity`, in exact integer
arithmetic.  The character code is `charValue charSigned`: the C value of the
`char` for `charSigned = true`, the unsigned byte for `charSigned = false`. -/
def specHashFrom (charSigned : Bool) (capacity : Int) : Key → Int → Int → Int
  | [], _, h => h
  | c :: rest, pos, h =>
    specHashFrom charSigned capacity rest (pos + 1) ((h + charValue charSigned c * pos) % capacity)

/-- The hash as the specification words it, starting from `running_hash = 0` at
position 0. -/
def specHash (charSigned : Bool) (key : Key) (capacity : Int) : Int :=
  specHashFrom charSigned capacity key 0 0

/-- Bucket placement: every entry in the chain of bucket `i` has a key that
hashes to `i` under the size of the table. -/
def Placed (charSigned : Bool) (ht : HashTable) : Prop :=
  ∀ (i : Nat) (b : HashNode), ht.table[i]? = some b →
    ∀ p ∈ entries b, hashFunction charSigned p.1 ht.size = some (i : Int)

/-- Key from ASCII text, for concrete examples: characters outside `1..255` are dropped. -/
def keyOf (s : String) : Key :=
  s.toList.filterMap fun ch =>
    if h : 0 < ch.toNat ∧ ch.toNat < 256 then some ⟨ch.toNat, h⟩ else none


/-! ## Sample data for the closed instances -/

/-- A block of three slots that hold left-over chains. -/
def junkBlock : List HashNode :=
  [HashNode.mk (keyOf "x") 7 HashNode.null, HashNode.null,
   HashNode.mk (keyOf "y") 8 (HashNode.mk (keyOf "z") 9 HashNode.null)]

/-- The insertions of `main`, followed by a second insertion of "apple". -/
def sampleOps : List (Key × Int) :=
  [(keyOf "apple", 100), (keyOf "banana", 200), (keyOf "orange", 300), (keyOf "apple", 5)]

/-- The two-character key with bytes 0x61 ('a') and 0x80. -/
def highByteKey : Key := [⟨97, by decide⟩, ⟨128, by decide⟩]

/-- A usable table of two buckets, bucket 0 holding two entries for the key "k". -/
def sampleTable : HashTable :=
  { size := 2,
    table := [HashNode.mk (keyOf "k") 1 (HashNode.mk (keyOf "k") 2 HashNode.null),
              HashNode.null] }

/-- The table holds an entry with key `k` in one of its chains. -/
def HoldsKey (ht : HashTable) (k : Key) : Prop :=
  ∃ b ∈ ht.table, ∃ p ∈ entries b, p.1 = k

/-- One call of `free` in `freeTable`, named by the allocation it releases: the
key copy or the node at position `depth` of the chain of bucket `bucket`, the
bucket array, or the table structure. -/
inductive Freed where
  | key (bucket depth : Nat) : Freed
  | node (bucket depth : Nat) : Freed
  | buckets : Freed
  | table : Freed
deriving DecidableEq, Repr

/-- The `while (node)` loop of `freeTable` on the chain of bucket `i`, the current
node being at position `d`: `node->next` is read first, then `free(temp->key)`
and `free(temp)` are called, and the loop goes on with the next node. -/
def freeChain (i : Nat) : Nat → HashNode → List Freed
  | _, HashNode.null => []
  | d, HashNode.mk _ _ next => Freed.key i d :: Freed.node i d :: freeChain i (d + 1) next

/-- The `for (int i = 0; i < ht->size; i++)` loop of `freeTable` with `n` iterations
left and loop counter `i`; reading `ht->table[i]` outside the array has no
defined result. -/
def freeBuckets (table : List HashNode) : Nat → Nat → Option (List Freed)
  | 0, _ => some []
  | n + 1, i =>
    match table[i]? with
    | none => none
    | some node =>
      match freeBuckets table n (i + 1) with
      | none => none
      | some later => some (freeChain i 0 node ++ later)

/-- Function `freeTable(ht)`: the calls of `free` it makes, in order; after the
loop over the buckets come `free(ht->table)` and `free(ht)`. -/
def freeTable (ht : HashTable) : Option (List Freed) :=
  match freeBuckets ht.table ht.size.toNat 0 with
  | none => none
  | some released => some (released ++ [Freed.buckets, Freed.table])

/-- Number of entries in all chains of the table. -/
def entryCount (table : List HashNode) : Nat :=
  (table.map fun b => (entries b).length).sum

/-- Smallest value of a 32-bit `int`. -/
def INT_MIN : Int := -2147483648

/-- The value of the first entry of a chain, head first, whose key is `k`; -1 when
the chain has no such entry. -/
def firstMatch (k : Key) (chain : List (Key × Int)) : Int :=
  match chain.find? (fun p => decide (p.1 = k)) with
  | some p => p.2
  | none => -1

/-- The plain character sum the design rationale of the specification compares
`hashFunction` with (a comparison function, not one of the source): the
accumulation without the position weight, `(running_hash + character_code) mod capacity`
for each character in order, in exact integer arithmetic. -/
def plainSumFrom (charSigned : Bool) (capacity : Int) : Key → Int → Int
  | [], h => h
  | c :: rest, h => plainSumFrom charSigned capacity rest ((h + charValue charSigned c) % capacity)

/-- The plain character sum modulo the capacity, starting from `running_hash = 0`. -/
def plainSum (charSigned : Bool) (key : Key) (capacity : Int) : Int :=
  plainSumFrom charSigned capacity key 0

/-- Every machine operation of the loop of `hashFunction` gives its exact result
on the run from counter `i` and accumulator `hash`: the `int` product, its
conversion to `unsigned int`, the `unsigned int` sum and the increment of `i`. -/
def NoWrap (charSigned : Bool) (size : Int) : Key → Int → Int → Prop
  | [], _, _ => True
  | c :: rest, i, hash =>
    toInt (charValue charSigned c * i) = charValue charSigned c * i ∧
    toUnsigned (toInt (charValue charSigned c * i)) = charValue charSigned c * i ∧
    toUnsigned (hash + toUnsigned (toInt (charValue charSigned c * i)))
      = hash + charValue charSigned c * i ∧
    toInt (i + 1) = i + 1 ∧
    NoWrap charSigned size rest (toInt (i + 1))
      (toUnsigned (hash + toUnsigned (toInt (charValue charSigned c * i))) % toUnsigned size)

/-- The sum over the positions `i` of the key of `key[i] * i`, the bytes taken as
numbers `1..255`, with `start` the position of the first byte given. -/
def weightedSumFrom (start : Nat) (key : Key) : Int :=
  ((key.enumFrom start).map fun p => (p.2.val : Int) * (p.1 : Int)).sum

/-- The sum over `i` of `key[i] * i`, positions counted from 0. -/
def weightedSum (key : Key) : Int := weightedSumFrom 0 key

/-! ## Lemmas on machine integers and on the hash -/

theorem toUnsigned_of_int_pos {size : Int} (hpos : 0 < size) (hmax : size ≤ INT_MAX) :
    toUnsigned size = size := by
  unfold toUnsigned
  unfold INT_MAX at hmax
  exact Int.emod_eq_of_lt (by omega) (by omega)

theorem hashLoop_range (charSigned : Bool) {size : Int} (hpos : 0 < size)
    (hmax : size ≤ INT_MAX) (key : Key) :
    ∀ (i hash : Int), 0 ≤ hash → hash < size →
      ∃ r, hashLoop charSigned size key i hash = some r ∧ 0 ≤ r ∧ r < size := by
  induction key with
  | nil => intro i hash h0 h1; exact ⟨hash, rfl, h0, h1⟩
  | cons c rest ih =>
    intro i hash _ _
    have hu := toUnsigned_of_int_pos hpos hmax
    have hne : toUnsigned size ≠ 0 := by omega
    rw [hashLoop, if_neg hne, hu]
    exact ih _ _ (Int.emod_nonneg _ (by omega)) (Int.emod_lt_of_pos _ hpos)

theorem hashFunction_range (charSigned : Bool) {size : Int} (hpos : 0 < size)
    (hmax : size ≤ INT_MAX) (key : Key) :
    ∃ r, hashFunction charSigned key size = some r ∧ 0 ≤ r ∧ r < size :=
  hashLoop_range charSigned hpos hmax key 0 0 (le_refl 0) hpos

/-- On a usable table the bucket index of every key is a valid position of the array. -/
theorem hashFunction_index (charSigned : Bool) {ht : HashTable} (hu : Usable ht) (key : Key) :
    ∃ n : Nat, hashFunction charSigned key ht.size = some (n : Int) ∧ n < ht.table.length := by
  obtain ⟨hpos, hmax, hlen⟩ := hu
  obtain ⟨r, hr, h0, h1⟩ := hashFunction_range charSigned hpos hmax key
  obtain ⟨n, rfl⟩ := Int.eq_ofNat_of_zero_le h0
  exact ⟨n, hr, by omega⟩

/-! ## Lemmas on chains -/

theorem strcmp_self (a : Key) : strcmp a a = 0 := by
  induction a with
  | nil => rfl
  | cons c rest ih => simp [strcmp, ih]

theorem strcmp_eq_zero_iff (a b : Key) : strcmp a b = 0 ↔ a = b := by
  induction a generalizing b with
  | nil =>
    cases b with
    | nil => simp [strcmp]
    | cons d bs =>
      have := d.property.1
      simp only [strcmp]
      constructor
      · intro h; omega
      · intro h; cases h
  | cons c rest ih =>
    cases b with
    | nil =>
      have := c.property.1
      simp only [strcmp]
      constructor
      · intro h; omega
      · intro h; cases h
    | cons d bs =>
      simp only [strcmp]
      by_cases hcd : c.val = d.val
      · have hcd2 : c = d := Subtype.ext hcd
        simp [hcd, ih bs, hcd2]
      · have hcd2 : c ≠ d := fun h => hcd (congrArg Subtype.val h)
        simp only [hcd, if_false]
        constructor
        · intro h; omega
        · intro h; injection h with h1 h2; exact absurd h1 hcd2

theorem getLoop_mk (key k : Key) (v : Int) (next : HashNode) :
    getLoop key (HashNode.mk k v next) = if k = key then v else getLoop key next := by
  by_cases h : k = key
  · simp [getLoop, h, strcmp_self]
  · have : strcmp k key ≠ 0 := fun h0 => h ((strcmp_eq_zero_iff k key).1 h0)
    simp [getLoop, h, this]

/-! ## Lemmas on set and get -/

/-- What `set` does on a usable table, with the bucket index named. -/
theorem set_usable (charSigned : Bool) {ht : HashTable} (hu : Usable ht) (key : Key)
    (value : Int) :
    ∃ (n : Nat) (head : HashNode),
      hashFunction charSigned key ht.size = some (n : Int) ∧ n < ht.table.length ∧
      ht.table[n]? = some head ∧
      set charSigned ht key value =
        some { size := ht.size, table := ht.table.set n (HashNode.mk key value head) } := by
  obtain ⟨n, hn, hlt⟩ := hashFunction_index charSigned hu key
  refine ⟨n, ht.table[n], hn, hlt, List.getElem?_eq_getElem hlt, ?_⟩
  simp [set, hn, List.getElem?_eq_getElem hlt]

theorem get_usable (charSigned : Bool) {ht : HashTable} (hu : Usable ht) (key : Key) :
    ∃ (n : Nat) (head : HashNode),
      hashFunction charSigned key ht.size = some (n : Int) ∧ n < ht.table.length ∧
      ht.table[n]? = some head ∧ get charSigned ht key = some (getLoop key head) := by
  obtain ⟨n, hn, hlt⟩ := hashFunction_index charSigned hu key
  refine ⟨n, ht.table[n], hn, hlt, List.getElem?_eq_getElem hlt, ?_⟩
  simp [get, hn, List.getElem?_eq_getElem hlt]

/-- The effect of one `set` on every later `get`. -/
theorem get_set (charSigned : Bool) {ht : HashTable} (hu : Usable ht) (k : Key) (v : Int) :
    ∃ ht2, set charSigned ht k v = some ht2 ∧ Usable ht2 ∧ ht2.size = ht.size ∧
      ∀ k2, get charSigned ht2 k2 = if k2 = k then some v else get charSigned ht k2 := by
  obtain ⟨n, head, hn, hlt, hhead, hset⟩ := set_usable charSigned hu k v
  have hu2 : Usable { size := ht.size, table := ht.table.set n (HashNode.mk k v head) } := by
    obtain ⟨h1, h2, h3⟩ := hu
    exact ⟨h1, h2, by simpa using h3⟩
  refine ⟨_, hset, hu2, rfl, ?_⟩
  intro k2
  obtain ⟨m, head2, hm, hmlt, hhead2, hget⟩ := get_usable charSigned hu k2
  by_cases hk : k2 = k
  · subst hk
    have hnm : m = n := by
      have := hm.symm.trans hn
      simpa using this
    subst hnm
    simp [get, hm, List.getElem?_set, hmlt, getLoop_mk]
  · simp only [hk, if_false, hget]
    by_cases hnm : n = m
    · subst hnm
      have hh : head2 = head := by
        have := hhead2.symm.trans hhead
        simpa using this
      have hk2 : ¬ k = k2 := fun h => hk h.symm
      simp [get, hm, List.getElem?_set, hmlt, getLoop_mk, hk2, hh]
    · simp [get, hm, List.getElem?_set, hnm, hhead2]

/-! ## Lemmas on createTable -/

theorem initBuckets_length (n : Nat) : ∀ (i : Nat) (table : List HashNode),
    (initBuckets n i table).length = table.length := by
  induction n with
  | zero => intro i table; rfl
  | succ n ih => intro i table; simp [initBuckets, ih]

theorem initBuckets_getElem? (n : Nat) : ∀ (i : Nat) (table : List HashNode) (j : Nat),
    (initBuckets n i table)[j]? =
      if i ≤ j ∧ j < i + n ∧ j < table.length then some HashNode.null else table[j]? := by
  induction n with
  | zero =>
    intro i table j
    have : ¬ (i ≤ j ∧ j < i + 0 ∧ j < table.length) := by omega
    rw [if_neg this, initBuckets]
  | succ n ih =>
    intro i table j
    rw [initBuckets, ih, List.getElem?_set, List.length_set]
    by_cases hij : i = j
    · subst hij
      by_cases hlt : i < table.length
      · have h1 : ¬ (i + 1 ≤ i ∧ i < i + 1 + n ∧ i < table.length) := by omega
        have h2 : i ≤ i ∧ i < i + (n + 1) ∧ i < table.length := ⟨le_refl i, by omega, hlt⟩
        simp [h1, h2, hlt]
      · have h1 : ¬ (i + 1 ≤ i ∧ i < i + 1 + n ∧ i < table.length) := by omega
        have h2 : ¬ (i ≤ i ∧ i < i + (n + 1) ∧ i < table.length) := by omega
        have h3 : table[i]? = none := List.getElem?_eq_none (by omega)
        simp [h1, h2, hlt, h3]
    · by_cases hc : i + 1 ≤ j ∧ j < i + 1 + n ∧ j < table.length
      · have h2 : i ≤ j ∧ j < i + (n + 1) ∧ j < table.length := by omega
        simp [hc, h2]
      · have h2 : ¬ (i ≤ j ∧ j < i + (n + 1) ∧ j < table.length) := by omega
        simp [hc, h2, hij]

/-- The table `createTable` returns, whatever the block held before. -/
theorem createTable_eq (size : Int) (block : List HashNode) (hpos : 0 ≤ size)
    (hlen : (block.length : Int) = size) :
    createTable size block =
      some { size := size, table := List.replicate size.toNat HashNode.null } := by
  have hn : size.toNat = block.length := by omega
  simp only [createTable, hlen, if_true]
  congr 2
  apply List.ext_getElem?
  intro j
  rw [initBuckets_getElem?, hn]
  by_cases hj : j < block.length
  · have : 0 ≤ j ∧ j < 0 + block.length ∧ j < block.length := by omega
    simp [this, List.getElem?_replicate, hj]
  · have : ¬ (0 ≤ j ∧ j < 0 + block.length ∧ j < block.length) := by omega
    have h3 : block[j]? = none := List.getElem?_eq_none (by omega)
    simp [this, List.getElem?_replicate, hj, h3]

theorem usable_fresh {size : Int} (hpos : 0 < size) (hmax : size ≤ INT_MAX) :
    Usable { size := size, table := List.replicate size.toNat HashNode.null } := by
  refine ⟨hpos, hmax, ?_⟩
  simp only [List.length_replicate]
  omega

/-- Every lookup on a table whose buckets are all empty gives -1. -/
theorem get_fresh (charSigned : Bool) {size : Int} (hpos : 0 < size) (hmax : size ≤ INT_MAX)
    (key : Key) :
    get charSigned { size := size, table := List.replicate size.toNat HashNode.null } key
      = some (-1) := by
  obtain ⟨n, head, _, hlt, hhead, hget⟩ := get_usable charSigned (usable_fresh hpos hmax) key
  rw [hget]
  simp only [List.getElem?_replicate] at hhead
  split at hhead
  · cases hhead; rfl
  · cases hhead

/-! ## Lemmas on sequences of set -/

theorem setAll_usable (charSigned : Bool) (ops : List (Key × Int)) :
    ∀ {ht : HashTable}, Usable ht →
      ∃ t, setAll charSigned ht ops = some t ∧ Usable t ∧ t.size = ht.size ∧
        ∀ k, get charSigned t k = ops.foldl (overwrite k) (get charSigned ht k) := by
  induction ops with
  | nil => intro ht hu; exact ⟨ht, rfl, hu, rfl, fun _ => rfl⟩
  | cons p ops ih =>
    intro ht hu
    obtain ⟨k1, v1⟩ := p
    obtain ⟨ht2, hset, hu2, hsz, hget⟩ := get_set charSigned hu k1 v1
    obtain ⟨t, ht, hut, hszt, hgett⟩ := ih hu2
    refine ⟨t, ?_, hut, hszt.trans hsz, ?_⟩
    · simp [setAll, hset, ht]
    · intro k
      rw [hgett k, hget k]
      rfl

theorem foldl_overwrite_absent (k : Key) (ops : List (Key × Int)) :
    ∀ (acc : Option Int), (∀ p ∈ ops, p.1 ≠ k) → ops.foldl (overwrite k) acc = acc := by
  induction ops with
  | nil => intro acc _; rfl
  | cons p ops ih =>
    intro acc h
    have hp : ¬ k = p.1 := fun e => h p (List.mem_cons_self _ _) e.symm
    simp only [List.foldl_cons, overwrite, hp, if_false]
    exact ih acc (fun q hq => h q (List.mem_cons_of_mem _ hq))

theorem foldl_overwrite_last (k : Key) (v : Int) (pre post : List (Key × Int))
    (acc : Option Int) (hpost : ∀ p ∈ post, p.1 ≠ k) :
    (pre ++ (k, v) :: post).foldl (overwrite k) acc = some v := by
  rw [List.foldl_append, List.foldl_cons]
  have : overwrite k (List.foldl (overwrite k) acc pre) (k, v) = some v := by
    simp [overwrite]
  rw [this]
  exact foldl_overwrite_absent k post (some v) hpost

/-- With distinct keys in a sequence of insertions, the insertion of an entry of
the sequence is the last one with its key. -/
theorem foldl_overwrite_nodup (ops : List (Key × Int)) (hnd : (ops.map Prod.fst).Nodup)
    (p : Key × Int) (hp : p ∈ ops) (acc : Option Int) :
    ops.foldl (overwrite p.1) acc = some p.2 := by
  obtain ⟨pre, post, rfl⟩ := List.append_of_mem hp
  have hpost : ∀ q ∈ post, q.1 ≠ p.1 := by
    intro q hq hqp
    rw [List.map_append, List.map_cons] at hnd
    have h2 := (List.nodup_cons.1 (List.nodup_append.1 hnd).2.1).1
    exact h2 (hqp ▸ List.mem_map_of_mem Prod.fst hq)
  exact foldl_overwrite_last p.1 p.2 pre post acc hpost

/-! ## Lemmas relating the hash to the exact accumulation -/

theorem charValue_le (charSigned : Bool) (c : CChar) : charValue charSigned c ≤ 255 := by
  have := c.property.2
  unfold charValue
  split <;> omega

theorem hashLoop_eq_spec (charSigned : Bool) {size : Int} (hpos : 0 < size)
    (hmax : size ≤ INT_MAX) (key : Key) :
    ∀ (i hash : Int), 0 ≤ i → 0 ≤ hash → hash < size →
      (∀ c ∈ key, 0 ≤ charValue charSigned c) →
      255 * (i + (key.length : Int) - 1) ≤ INT_MAX →
      hashLoop charSigned size key i hash = some (specHashFrom charSigned size key i hash) := by
  induction key with
  | nil => intro i hash _ _ _ _ _; rfl
  | cons c rest ih =>
    intro i hash hi h0 h1 hnn hlen
    have hu := toUnsigned_of_int_pos hpos hmax
    have hne : toUnsigned size ≠ 0 := by omega
    have hc0 : 0 ≤ charValue charSigned c := hnn c (List.mem_cons_self _ _)
    have hc1 := charValue_le charSigned c
    have hp0 : 0 ≤ charValue charSigned c * i := Int.mul_nonneg hc0 hi
    have hp1 : charValue charSigned c * i ≤ 255 * i := Int.mul_le_mul_of_nonneg_right hc1 hi
    simp only [List.length_cons, Nat.cast_add, Nat.cast_one] at hlen
    unfold INT_MAX at hlen hmax
    have hlen0 : (0 : Int) ≤ (rest.length : Int) := Int.ofNat_nonneg _
    have e1 : toInt (charValue charSigned c * i) = charValue charSigned c * i := by
      unfold toInt
      rw [Int.emod_eq_of_lt (by omega) (by omega)]
      omega
    have e2 : toUnsigned (charValue charSigned c * i) = charValue charSigned c * i := by
      unfold toUnsigned
      exact Int.emod_eq_of_lt hp0 (by omega)
    have e3 : toUnsigned (hash + charValue charSigned c * i) = hash + charValue charSigned c * i := by
      unfold toUnsigned
      exact Int.emod_eq_of_lt (by omega) (by omega)
    have e4 : toInt (i + 1) = i + 1 := by
      unfold toInt
      rw [Int.emod_eq_of_lt (by omega) (by omega)]
      omega
    rw [hashLoop, if_neg hne, hu, e1, e2, e3, e4, specHashFrom]
    refine ih (i + 1) _ (by omega) (Int.emod_nonneg _ (by omega)) (Int.emod_lt_of_pos _ hpos)
      (fun d hd => hnn d (List.mem_cons_of_mem _ hd)) ?_
    unfold INT_MAX
    omega

/-! ## Lemmas on bucket placement -/

theorem placed_fresh (charSigned : Bool) (size : Int) :
    Placed charSigned { size := size, table := List.replicate size.toNat HashNode.null } := by
  intro i b hb p hp
  simp only [List.getElem?_replicate] at hb
  split at hb
  · cases hb; cases hp
  · cases hb

theorem placed_set (charSigned : Bool) {ht ht2 : HashTable} (hu : Usable ht)
    (hpl : Placed charSigned ht) (k : Key) (v : Int)
    (hset : set charSigned ht k v = some ht2) : Placed charSigned ht2 := by
  obtain ⟨n, head, hn, hlt, hhead, hset2⟩ := set_usable charSigned hu k v
  rw [hset2] at hset
  cases hset
  intro i b hb p hp
  simp only [List.getElem?_set] at hb
  by_cases hni : n = i
  · subst hni
    simp only [if_true, hlt] at hb
    cases hb
    simp only [entries, List.mem_cons] at hp
    rcases hp with rfl | hp
    · exact hn
    · exact hpl n head hhead p hp
  · simp only [hni, if_false] at hb
    exact hpl i b hb p hp

theorem placed_setAll (charSigned : Bool) (ops : List (Key × Int)) :
    ∀ {ht t : HashTable}, Usable ht → Placed charSigned ht →
      setAll charSigned ht ops = some t → Placed charSigned t := by
  induction ops with
  | nil => intro ht t _ hpl h; cases h; exact hpl
  | cons p ops ih =>
    intro ht t hu hpl h
    obtain ⟨k1, v1⟩ := p
    obtain ⟨ht2, hset, hu2, _, _⟩ := get_set charSigned hu k1 v1
    simp only [setAll, hset] at h
    exact ih hu2 (placed_set charSigned hu hpl k1 v1 hset) h

/-! ## Lemmas on the keys a table holds -/

theorem not_holdsKey_fresh (size : Int) (k : Key) :
    ¬ HoldsKey { size := size, table := List.replicate size.toNat HashNode.null } k := by
  rintro ⟨b, hb, p, hp, _⟩
  have := (List.mem_replicate.1 hb).2
  subst this
  cases hp

theorem holdsKey_set_self (charSigned : Bool) {ht ht2 : HashTable} (hu : Usable ht)
    (k : Key) (v : Int) (hset : set charSigned ht k v = some ht2) : HoldsKey ht2 k := by
  obtain ⟨n, head, _, hlt, _, hset2⟩ := set_usable charSigned hu k v
  rw [hset2] at hset
  cases hset
  refine ⟨HashNode.mk k v head, ?_, (k, v), ?_, rfl⟩
  · exact List.mem_iff_getElem?.2 ⟨n, by simp [List.getElem?_set, hlt]⟩
  · simp [entries]

theorem holdsKey_set_other (charSigned : Bool) {ht ht2 : HashTable} (hu : Usable ht)
    (k k2 : Key) (v : Int) (hset : set charSigned ht k2 v = some ht2)
    (hk : HoldsKey ht2 k) : HoldsKey ht k ∨ k = k2 := by
  obtain ⟨n, head, _, hlt, hhead, hset2⟩ := set_usable charSigned hu k2 v
  rw [hset2] at hset
  cases hset
  obtain ⟨b, hb, p, hp, hpk⟩ := hk
  obtain ⟨j, hj⟩ := List.mem_iff_getElem?.1 hb
  simp only [List.getElem?_set] at hj
  by_cases hnj : n = j
  · subst hnj
    simp only [if_true, hlt] at hj
    cases hj
    simp only [entries, List.mem_cons] at hp
    rcases hp with rfl | hp
    · exact Or.inr hpk.symm
    · exact Or.inl ⟨head, List.mem_iff_getElem?.2 ⟨n, hhead⟩, p, hp, hpk⟩
  · simp only [hnj, if_false] at hj
    exact Or.inl ⟨b, List.mem_iff_getElem?.2 ⟨j, hj⟩, p, hp, hpk⟩

theorem not_holdsKey_setAll (charSigned : Bool) (k : Key) (ops : List (Key × Int)) :
    ∀ {ht t : HashTable}, Usable ht → ¬ HoldsKey ht k → (∀ p ∈ ops, p.1 ≠ k) →
      setAll charSigned ht ops = some t → ¬ HoldsKey t k := by
  induction ops with
  | nil => intro ht t _ hno _ h; cases h; exact hno
  | cons p ops ih =>
    intro ht t hu hno hops h
    obtain ⟨k1, v1⟩ := p
    obtain ⟨ht2, hset, hu2, _, _⟩ := get_set charSigned hu k1 v1
    simp only [setAll, hset] at h
    have hno2 : ¬ HoldsKey ht2 k := by
      intro hk
      rcases holdsKey_set_other charSigned hu k k1 v1 hset hk with h1 | h1
      · exact hno h1
      · exact hops (k1, v1) (List.mem_cons_self _ _) h1.symm
    exact ih hu2 hno2 (fun q hq => hops q (List.mem_cons_of_mem _ hq)) h


/-! ## Lemmas on freeTable -/

theorem freeChain_mem (i : Nat) (b : HashNode) : ∀ (d0 : Nat) (x : Freed),
    x ∈ freeChain i d0 b ↔
      ∃ d, d0 ≤ d ∧ d < d0 + (entries b).length ∧ (x = Freed.key i d ∨ x = Freed.node i d) := by
  induction b with
  | null =>
    intro d0 x
    simp only [freeChain, entries, List.not_mem_nil, List.length_nil, false_iff]
    rintro ⟨d, h1, h2, _⟩
    omega
  | mk k v next ih =>
    intro d0 x
    simp only [freeChain, entries, List.mem_cons, List.length_cons, ih (d0 + 1) x]
    constructor
    · rintro (h | h | ⟨d, h1, h2, h3⟩)
      · exact ⟨d0, le_refl _, by omega, Or.inl h⟩
      · exact ⟨d0, le_refl _, by omega, Or.inr h⟩
      · exact ⟨d, by omega, by omega, h3⟩
    · rintro ⟨d, h1, h2, h3⟩
      by_cases hd : d = d0
      · subst hd
        rcases h3 with h3 | h3
        · exact Or.inl h3
        · exact Or.inr (Or.inl h3)
      · exact Or.inr (Or.inr ⟨d, by omega, by omega, h3⟩)

theorem freeChain_nodup (i : Nat) (b : HashNode) : ∀ (d0 : Nat), (freeChain i d0 b).Nodup := by
  induction b with
  | null => intro d0; simp [freeChain]
  | mk k v next ih =>
    intro d0
    simp only [freeChain, List.nodup_cons, List.mem_cons, freeChain_mem]
    refine ⟨?_, ?_, ih (d0 + 1)⟩
    · rintro (h | ⟨d, h1, _, h3 | h3⟩)
      · cases h
      · injection h3 with _ h4; omega
      · cases h3
    · rintro ⟨d, h1, _, h3 | h3⟩
      · cases h3
      · injection h3 with _ h4; omega

theorem freeChain_length (i : Nat) (b : HashNode) : ∀ (d0 : Nat),
    (freeChain i d0 b).length = 2 * (entries b).length := by
  induction b with
  | null => intro d0; rfl
  | mk k v next ih =>
    intro d0
    simp only [freeChain, entries, List.length_cons, ih (d0 + 1)]
    omega

/-- The releases made by the loop over the buckets `i .. i + n - 1`. -/
theorem freeBuckets_spec (table : List HashNode) (n : Nat) : ∀ (i : Nat),
    i + n ≤ table.length →
    ∃ tr, freeBuckets table n i = some tr ∧ tr.Nodup ∧
      (∀ x, x ∈ tr ↔ ∃ j b d, i ≤ j ∧ j < i + n ∧ table[j]? = some b ∧
        d < (entries b).length ∧ (x = Freed.key j d ∨ x = Freed.node j d)) ∧
      tr.length = 2 * entryCount ((table.drop i).take n) := by
  induction n with
  | zero =>
    intro i _
    refine ⟨[], rfl, List.nodup_nil, ?_, by simp [entryCount]⟩
    intro x
    simp only [List.not_mem_nil, false_iff]
    rintro ⟨j, _, _, h1, h2, _⟩
    omega
  | succ n ih =>
    intro i hi
    have hlt : i < table.length := by omega
    obtain ⟨tr, htr, hnd, hmem, hlen⟩ := ih (i + 1) (by omega)
    have hget : table[i]? = some table[i] := List.getElem?_eq_getElem hlt
    refine ⟨freeChain i 0 table[i] ++ tr, ?_, ?_, ?_, ?_⟩
    · simp [freeBuckets, hget, htr]
    · refine List.nodup_append.2 ⟨freeChain_nodup i _ 0, hnd, ?_⟩
      intro x hx1 hx2
      obtain ⟨d, _, _, h3⟩ := (freeChain_mem i _ 0 x).1 hx1
      obtain ⟨j, _, d2, hj, _, _, _, h4⟩ := (hmem x).1 hx2
      rcases h3 with h3 | h3 <;> rcases h4 with h4 | h4 <;> subst h3 <;>
        first
        | (injection h4 with h5 _; omega)
        | cases h4
    · intro x
      rw [List.mem_append, freeChain_mem, hmem]
      constructor
      · rintro (⟨d, _, h2, h3⟩ | ⟨j, b, d, h1, h2, h3, h4, h5⟩)
        · exact ⟨i, table[i], d, le_refl _, by omega, hget, by omega, h3⟩
        · exact ⟨j, b, d, by omega, by omega, h3, h4, h5⟩
      · rintro ⟨j, b, d, h1, h2, h3, h4, h5⟩
        by_cases hj : j = i
        · subst hj
          rw [hget] at h3
          cases h3
          exact Or.inl ⟨d, Nat.zero_le _, by omega, h5⟩
        · exact Or.inr ⟨j, b, d, by omega, by omega, h3, h4, h5⟩
    · rw [List.length_append, freeChain_length, hlen, List.drop_eq_getElem_cons hlt,
        List.take_succ_cons]
      simp only [entryCount, List.map_cons, List.sum_cons]
      omega


/-! ## Lemmas on the search of a chain and on the zero divisor -/

theorem getLoop_eq_firstMatch (k : Key) (b : HashNode) :
    getLoop k b = firstMatch k (entries b) := by
  induction b with
  | null => rfl
  | mk k1 v next ih =>
    rw [getLoop_mk, entries]
    unfold firstMatch at ih ⊢
    by_cases h : k1 = k
    · simp [h]
    · simp [h, ih]

theorem toUnsigned_eq_zero_iff {size : Int} (hmin : INT_MIN ≤ size) (hmax : size ≤ INT_MAX) :
    toUnsigned size = 0 ↔ size = 0 := by
  unfold INT_MIN at hmin
  unfold INT_MAX at hmax
  unfold toUnsigned
  omega

theorem hashLoop_defined (charSigned : Bool) {size : Int} (hne : toUnsigned size ≠ 0)
    (key : Key) : ∀ (i hash : Int), ∃ r, hashLoop charSigned size key i hash = some r := by
  induction key with
  | nil => intro i hash; exact ⟨hash, rfl⟩
  | cons c rest ih =>
    intro i hash
    rw [hashLoop, if_neg hne]
    exact ih _ _

theorem hashFunction_zero_size (charSigned : Bool) (c : CChar) (rest : Key) :
    hashFunction charSigned (c :: rest) 0 = none := by
  simp [hashFunction, hashLoop, toUnsigned]


/-! ## Lemmas on the plain sum and on the position weights -/

theorem plainSumFrom_eq (charSigned : Bool) (capacity : Int) (key : Key) : ∀ (h : Int),
    plainSumFrom charSigned capacity key (h % capacity)
      = (h + (key.map (charValue charSigned)).sum) % capacity := by
  induction key with
  | nil => intro h; simp [plainSumFrom]
  | cons c rest ih =>
    intro h
    rw [plainSumFrom, Int.emod_add_emod, ih, List.map_cons, List.sum_cons, Int.add_assoc]

theorem plainSum_eq (charSigned : Bool) (key : Key) (capacity : Int) :
    plainSum charSigned key capacity = (key.map (charValue charSigned)).sum % capacity := by
  have h := plainSumFrom_eq charSigned capacity key 0
  rw [Int.zero_emod, Int.zero_add] at h
  exact h

/-- The first iteration of the loop of `hashFunction`: the weight of position 0 is 0. -/
theorem hashFunction_cons (charSigned : Bool) (c : CChar) (rest : Key) {size : Int}
    (hpos : 0 < size) (hmax : size ≤ INT_MAX) :
    hashFunction charSigned (c :: rest) size = hashLoop charSigned size rest 1 0 := by
  have hu := toUnsigned_of_int_pos hpos hmax
  have hne : toUnsigned size ≠ 0 := by omega
  rw [hashFunction, hashLoop, if_neg hne]
  have e1 : toInt (0 + 1) = 1 := by decide
  have e2 : toUnsigned (0 + toUnsigned (toInt (charValue charSigned c * 0))) = 0 := by
    rw [Int.mul_zero]; decide
  rw [e1, e2, Int.zero_emod]

theorem charValue_ascii (charSigned : Bool) (c : CChar) (h : c.val ≤ 127) :
    charValue charSigned c = (c.val : Int) := by
  have h2 : ¬ 128 ≤ c.val := by omega
  simp [charValue, h2]

theorem hashLoop_ascii (charSigned : Bool) {size : Int} (hpos : 0 < size)
    (hmax : size ≤ INT_MAX) (key : Key) :
    ∀ (n : Nat) (hash : Int), 0 ≤ hash → hash < size →
      (∀ c ∈ key, c.val ≤ 127) →
      127 * ((n : Int) + (key.length : Int) - 1) ≤ INT_MAX →
      NoWrap charSigned size key (n : Int) hash ∧
      hashLoop charSigned size key (n : Int) hash
        = some ((hash + weightedSumFrom n key) % size) := by
  induction key with
  | nil =>
    intro n hash h0 h1 _ _
    refine ⟨trivial, ?_⟩
    simp only [hashLoop, weightedSumFrom, List.enumFrom_nil, List.map_nil, List.sum_nil,
      Int.add_zero]
    rw [Int.emod_eq_of_lt h0 h1]
  | cons c rest ih =>
    intro n hash h0 h1 hascii hlen
    have hu := toUnsigned_of_int_pos hpos hmax
    have hne : toUnsigned size ≠ 0 := by omega
    have hcv := charValue_ascii charSigned c (hascii c (List.mem_cons_self _ _))
    have hc0 : (0 : Int) ≤ (c.val : Int) := Int.ofNat_nonneg _
    have hc1 : (c.val : Int) ≤ 127 := by
      have := hascii c (List.mem_cons_self _ _)
      omega
    have hn0 : (0 : Int) ≤ (n : Int) := Int.ofNat_nonneg _
    have hp0 : 0 ≤ (c.val : Int) * (n : Int) := Int.mul_nonneg hc0 hn0
    have hp1 : (c.val : Int) * (n : Int) ≤ 127 * (n : Int) :=
      Int.mul_le_mul_of_nonneg_right hc1 hn0
    simp only [List.length_cons, Nat.cast_add, Nat.cast_one] at hlen
    have hlen0 : (0 : Int) ≤ (rest.length : Int) := Int.ofNat_nonneg _
    have hmax2 := hmax
    unfold INT_MAX at hlen hmax2
    have e1 : toInt ((c.val : Int) * (n : Int)) = (c.val : Int) * (n : Int) := by
      unfold toInt
      rw [Int.emod_eq_of_lt (by omega) (by omega)]
      omega
    have e2 : toUnsigned ((c.val : Int) * (n : Int)) = (c.val : Int) * (n : Int) := by
      unfold toUnsigned
      exact Int.emod_eq_of_lt hp0 (by omega)
    have e3 : toUnsigned (hash + (c.val : Int) * (n : Int)) = hash + (c.val : Int) * (n : Int) := by
      unfold toUnsigned
      exact Int.emod_eq_of_lt (by omega) (by omega)
    have e4 : toInt ((n : Int) + 1) = (n : Int) + 1 := by
      unfold toInt
      rw [Int.emod_eq_of_lt (by omega) (by omega)]
      omega
    have hcast : ((n : Int) + 1) = ((n + 1 : Nat) : Int) := by
      rw [Nat.cast_succ]
    have hlen2 : 127 * ((n : Int) + 1 + (rest.length : Int) - 1) ≤ 2147483647 := by
      clear e1 e2 e3 e4 hp0 hp1 ih hcast
      omega
    have hlen3 : 127 * (((n + 1 : Nat) : Int) + (rest.length : Int) - 1) ≤ INT_MAX := by
      rw [← hcast]
      exact hlen2
    obtain ⟨ihw, ihv⟩ := ih (n + 1) ((hash + (c.val : Int) * (n : Int)) % size)
      (Int.emod_nonneg _ (by omega)) (Int.emod_lt_of_pos _ hpos)
      (fun d hd => hascii d (List.mem_cons_of_mem _ hd))
      hlen3
    have hsum : weightedSumFrom n (c :: rest)
        = (c.val : Int) * (n : Int) + weightedSumFrom (n + 1) rest := by
      simp [weightedSumFrom, List.enumFrom_cons]
    constructor
    · rw [NoWrap, hcv, e1, e2, e3, e4, hu, hcast]
      exact ⟨rfl, rfl, rfl, rfl, ihw⟩
    · rw [hashLoop, if_neg hne, hcv, e1, e2, e3, e4, hu, hcast, ihv, hsum,
        Int.emod_add_emod, Int.add_assoc]


/-! ## The claims -/

/-- C1: for a positive capacity, after any sequence of `set` calls on the table
`createTable` returns, `get` on a key gives the value of the last `set` of the
sequence with that key, and -1 when no `set` of the sequence used the key. -/
theorem get_after_sets_is_last_write (charSigned : Bool) (size : Int)
    (block : List HashNode) (ops : List (Key × Int)) (k : Key)
    (hpos : 0 < size) (hmax : size ≤ INT_MAX) (hblock : (block.length : Int) = size) :
    ∃ t0 t, createTable size block = some t0 ∧ setAll charSigned t0 ops = some t ∧
      (∀ pre v post, ops = pre ++ (k, v) :: post → (∀ p ∈ post, p.1 ≠ k) →
        get charSigned t k = some v) ∧
      ((∀ p ∈ ops, p.1 ≠ k) → get charSigned t k = some (-1)) := by
  obtain ⟨t, hall, _, _, hget⟩ := setAll_usable charSigned ops (usable_fresh hpos hmax)
  refine ⟨_, t, createTable_eq size block (le_of_lt hpos) hblock, hall, ?_, ?_⟩
  · intro pre v post hops hpost
    rw [hget k, hops]
    exact foldl_overwrite_last k v pre post _ hpost
  · intro habs
    rw [hget k, foldl_overwrite_absent k ops _ habs]
    exact get_fresh charSigned hpos hmax k

theorem get_after_sets_is_last_write_witness :
    (0 : Int) < 50 ∧
    ∃ t0 t, createTable 50 (List.replicate 50 (HashNode.mk (keyOf "x") 7 HashNode.null))
        = some t0 ∧
      setAll true t0 sampleOps = some t ∧
      (∀ pre v post, sampleOps = pre ++ (keyOf "apple", v) :: post →
        (∀ p ∈ post, p.1 ≠ keyOf "apple") → get true t (keyOf "apple") = some v) ∧
      ((∀ p ∈ sampleOps, p.1 ≠ keyOf "apple") → get true t (keyOf "apple") = some (-1)) :=
  ⟨by decide,
   get_after_sets_is_last_write true 50
     (List.replicate 50 (HashNode.mk (keyOf "x") 7 HashNode.null)) sampleOps (keyOf "apple")
     (by decide) (by decide) (by decide)⟩

/-- C2: last write wins.  On a usable table, whatever its chains hold, `get`
right after `set(t, k, v1)` gives `v1`, and after a further `set(t, k, v2)` gives `v2`. -/
theorem last_write_wins (charSigned : Bool) (ht : HashTable) (k : Key) (v1 v2 : Int)
    (hu : Usable ht) :
    ∃ t1 t2, set charSigned ht k v1 = some t1 ∧ get charSigned t1 k = some v1 ∧
      set charSigned t1 k v2 = some t2 ∧ get charSigned t2 k = some v2 := by
  obtain ⟨t1, hs1, hu1, _, hg1⟩ := get_set charSigned hu k v1
  obtain ⟨t2, hs2, _, _, hg2⟩ := get_set charSigned hu1 k v2
  exact ⟨t1, t2, hs1, by simp [hg1 k], hs2, by simp [hg2 k]⟩

theorem last_write_wins_witness :
    Usable sampleTable ∧
    ∃ t1 t2, set true sampleTable (keyOf "k") 1 = some t1 ∧
      get true t1 (keyOf "k") = some 1 ∧
      set true t1 (keyOf "k") 2 = some t2 ∧ get true t2 (keyOf "k") = some 2 :=
  ⟨by decide, last_write_wins true sampleTable (keyOf "k") 1 2 (by decide)⟩

/-- C3: not found.  For a positive capacity, on the table reached from
`createTable` by any sequence of `set` calls, `get` gives -1 for every key no
`set` of the sequence used; on the fresh table `get` gives -1 for every key. -/
theorem get_never_set_is_minus_one (charSigned : Bool) (size : Int)
    (block : List HashNode) (ops : List (Key × Int)) (k : Key)
    (hpos : 0 < size) (hmax : size ≤ INT_MAX) (hblock : (block.length : Int) = size)
    (hk : ∀ p ∈ ops, p.1 ≠ k) :
    ∃ t0 t, createTable size block = some t0 ∧ setAll charSigned t0 ops = some t ∧
      get charSigned t k = some (-1) ∧ ∀ key, get charSigned t0 key = some (-1) := by
  obtain ⟨t, hall, _, _, hget⟩ := setAll_usable charSigned ops (usable_fresh hpos hmax)
  refine ⟨_, t, createTable_eq size block (le_of_lt hpos) hblock, hall, ?_, ?_⟩
  · rw [hget k, foldl_overwrite_absent k ops _ hk]
    exact get_fresh charSigned hpos hmax k
  · intro key
    exact get_fresh charSigned hpos hmax key

theorem get_never_set_is_minus_one_witness :
    (∀ p ∈ sampleOps, p.1 ≠ keyOf "grape") ∧
    ∃ t0 t, createTable 3 junkBlock = some t0 ∧ setAll true t0 sampleOps = some t ∧
      get true t (keyOf "grape") = some (-1) ∧ ∀ key, get true t0 key = some (-1) :=
  ⟨by decide,
   get_never_set_is_minus_one true 3 junkBlock sampleOps (keyOf "grape")
     (by decide) (by decide) (by decide) (by decide)⟩

/-- C4: chain integrity under collision.  On a usable table a `set` with key `k2`
leaves the result of `get` unchanged for every other key `k`, in the same bucket
or not; and with capacity 1, where every key goes to bucket 0, after inserting
any number of distinct keys each one is found with its own value. -/
theorem set_keeps_other_keys (charSigned : Bool) (ht : HashTable) (k k2 : Key) (v2 : Int)
    (block : List HashNode) (ops : List (Key × Int))
    (hu : Usable ht) (hne : k ≠ k2) (hblock : block.length = 1)
    (hnd : (ops.map Prod.fst).Nodup) :
    (∃ ht2, set charSigned ht k2 v2 = some ht2 ∧ get charSigned ht2 k = get charSigned ht k) ∧
    (∃ t0 t, createTable 1 block = some t0 ∧ setAll charSigned t0 ops = some t ∧
      ∀ p ∈ ops, hashFunction charSigned p.1 1 = some 0 ∧ get charSigned t p.1 = some p.2) := by
  constructor
  · obtain ⟨ht2, hs, _, _, hg⟩ := get_set charSigned hu k2 v2
    exact ⟨ht2, hs, by simp [hg k, hne]⟩
  · have hpos : (0 : Int) < 1 := by decide
    have hmax : (1 : Int) ≤ INT_MAX := by decide
    obtain ⟨t, hall, _, _, hget⟩ := setAll_usable charSigned ops (usable_fresh hpos hmax)
    refine ⟨_, t, createTable_eq 1 block (by decide) (by simp [hblock]), hall, ?_⟩
    intro p hp
    constructor
    · obtain ⟨r, hr, h0, h1⟩ := hashFunction_range charSigned hpos hmax p.1
      have : r = 0 := by omega
      rw [hr, this]
    · rw [hget p.1]
      exact foldl_overwrite_nodup ops hnd p hp _

theorem set_keeps_other_keys_witness :
    (Usable sampleTable ∧ keyOf "k" ≠ keyOf "m" ∧
      ([(keyOf "a", (1 : Int)), (keyOf "b", 2), (keyOf "c", 3), (keyOf "d", 4),
        (keyOf "e", 5)].map Prod.fst).Nodup) ∧
    (∃ ht2, set true sampleTable (keyOf "m") 9 = some ht2 ∧
      get true ht2 (keyOf "k") = get true sampleTable (keyOf "k")) ∧
    (∃ t0 t, createTable 1 [HashNode.null] = some t0 ∧
      setAll true t0 [(keyOf "a", 1), (keyOf "b", 2), (keyOf "c", 3), (keyOf "d", 4),
        (keyOf "e", 5)] = some t ∧
      ∀ p ∈ [(keyOf "a", (1 : Int)), (keyOf "b", 2), (keyOf "c", 3), (keyOf "d", 4),
        (keyOf "e", 5)],
        hashFunction true p.1 1 = some 0 ∧ get true t p.1 = some p.2) :=
  ⟨⟨by decide, by decide, by decide⟩,
   set_keeps_other_keys true sampleTable (keyOf "k") (keyOf "m") 9 [HashNode.null]
     [(keyOf "a", 1), (keyOf "b", 2), (keyOf "c", 3), (keyOf "d", 4), (keyOf "e", 5)]
     (by decide) (by decide) (by decide) (by decide)⟩

/-- C5: hash range.  For every capacity that is a positive `int` and every key,
of any bytes and any length, `hashFunction` returns an index `r` with `0 ≤ r < capacity`,
under either signedness of `char`. -/
theorem hashFunction_in_range (charSigned : Bool) (key : Key) (size : Int)
    (hpos : 0 < size) (hmax : size ≤ INT_MAX) :
    ∃ r, hashFunction charSigned key size = some r ∧ 0 ≤ r ∧ r < size :=
  hashFunction_range charSigned hpos hmax key

theorem hashFunction_in_range_witness :
    (0 : Int) < 50 ∧ (50 : Int) ≤ INT_MAX ∧
    ∃ r, hashFunction true [⟨97, by decide⟩, ⟨200, by decide⟩, ⟨255, by decide⟩] 50 = some r ∧
      0 ≤ r ∧ r < 50 :=
  ⟨by decide, by decide,
   hashFunction_in_range true [⟨97, by decide⟩, ⟨200, by decide⟩, ⟨255, by decide⟩] 50
     (by decide) (by decide)⟩

/-- C6 as stated fails: with signed `char`, capacity 50 and the key of bytes 0x61 0x80,
`hashFunction` returns 18 (the product -128 becomes 4294967168 as `unsigned int`),
while the exact accumulation gives 22 with the code -128 and 28 with the code 128. -/
theorem hashFunction_ne_spec_high_byte :
    hashFunction true highByteKey 50 = some 18 ∧
    specHash true highByteKey 50 = 22 ∧
    specHash false highByteKey 50 = 28 ∧
    hashFunction true highByteKey 50 ≠ some (specHash true highByteKey 50) ∧
    hashFunction true highByteKey 50 ≠ some (specHash false highByteKey 50) := by
  decide

/-- C6, amended: for every capacity that is a positive `int` and every key whose
characters all have a non-negative `char` value and whose length `L` satisfies
`255 * (L - 1) ≤ INT_MAX`, `hashFunction` equals the accumulation of
`(running_hash + character_code * position_index) mod capacity` in exact integer
arithmetic, starting from 0. -/
theorem hashFunction_eq_spec_of_nonneg (charSigned : Bool) (key : Key) (size : Int)
    (hpos : 0 < size) (hmax : size ≤ INT_MAX)
    (hnn : ∀ c ∈ key, 0 ≤ charValue charSigned c)
    (hlen : 255 * ((key.length : Int) - 1) ≤ INT_MAX) :
    hashFunction charSigned key size = some (specHash charSigned key size) :=
  hashLoop_eq_spec charSigned hpos hmax key 0 0 (le_refl 0) (le_refl 0) hpos hnn
    (by simpa using hlen)

theorem hashFunction_eq_spec_of_nonneg_witness :
    (∀ c ∈ keyOf "banana", 0 ≤ charValue true c) ∧
    hashFunction true (keyOf "banana") 50 = some (specHash true (keyOf "banana") 50) ∧
    specHash true (keyOf "banana") 50 = 33 :=
  ⟨by decide,
   hashFunction_eq_spec_of_nonneg true (keyOf "banana") 50 (by decide) (by decide)
     (by decide) (by decide),
   by decide⟩

/-- C7: the empty key hashes to 0 for every capacity, and on a usable table `get`
of the empty key right after `set` of the empty key with value `v` gives `v`. -/
theorem empty_key_hash_and_lookup (charSigned : Bool) (size : Int) (ht : HashTable) (v : Int)
    (hu : Usable ht) :
    hashFunction charSigned [] size = some 0 ∧
    ∃ ht2, set charSigned ht [] v = some ht2 ∧ get charSigned ht2 [] = some v := by
  refine ⟨rfl, ?_⟩
  obtain ⟨ht2, hs, _, _, hg⟩ := get_set charSigned hu [] v
  exact ⟨ht2, hs, by simp [hg []]⟩

theorem empty_key_hash_and_lookup_witness :
    Usable sampleTable ∧ hashFunction true [] 0 = some 0 ∧
    ∃ ht2, set true sampleTable [] 42 = some ht2 ∧ get true ht2 [] = some 42 :=
  ⟨by decide, empty_key_hash_and_lookup true 0 sampleTable 42 (by decide)⟩

/-- C8: bucket placement.  For a positive capacity the table `createTable` returns
satisfies the placement invariant, so does every table reached from it by a
sequence of `set` calls, and a further `set` on such a table preserves it; `get`
returns a number only and changes no table. -/
theorem buckets_placed_reachable (charSigned : Bool) (size : Int) (block : List HashNode)
    (ops : List (Key × Int))
    (hpos : 0 < size) (hmax : size ≤ INT_MAX) (hblock : (block.length : Int) = size) :
    ∃ t0 t, createTable size block = some t0 ∧ setAll charSigned t0 ops = some t ∧
      Placed charSigned t0 ∧ Placed charSigned t ∧
      ∀ k v, ∃ t2, set charSigned t k v = some t2 ∧ Placed charSigned t2 := by
  have hu0 := usable_fresh hpos hmax
  obtain ⟨t, hall, hut, _, _⟩ := setAll_usable charSigned ops hu0
  have hpl0 := placed_fresh charSigned size
  have hplt := placed_setAll charSigned ops hu0 hpl0 hall
  refine ⟨_, t, createTable_eq size block (le_of_lt hpos) hblock, hall, hpl0, hplt, ?_⟩
  intro k v
  obtain ⟨t2, hs, _, _, _⟩ := get_set charSigned hut k v
  exact ⟨t2, hs, placed_set charSigned hut hplt k v hs⟩

theorem buckets_placed_reachable_witness :
    ((junkBlock.length : Int) = 3) ∧
    ∃ t0 t, createTable 3 junkBlock = some t0 ∧ setAll true t0 sampleOps = some t ∧
      Placed true t0 ∧ Placed true t ∧
      ∀ k v, ∃ t2, set true t k v = some t2 ∧ Placed true t2 :=
  ⟨by decide,
   buckets_placed_reachable true 3 junkBlock sampleOps (by decide) (by decide) (by decide)⟩

/-- C9: for a positive capacity and a block of that many slots, whatever they
held, `createTable` returns a table whose `size` field is the capacity and whose
bucket array has exactly that many buckets, each of them empty. -/
theorem createTable_all_empty (size : Int) (block : List HashNode)
    (hpos : 0 < size) (hblock : (block.length : Int) = size) :
    ∃ ht, createTable size block = some ht ∧ ht.size = size ∧
      (ht.table.length : Int) = size ∧ ∀ b ∈ ht.table, b = HashNode.null := by
  refine ⟨_, createTable_eq size block (le_of_lt hpos) hblock, rfl, ?_, ?_⟩
  · simp only [List.length_replicate]
    omega
  · intro b hb
    exact (List.mem_replicate.1 hb).2

theorem createTable_all_empty_witness :
    ((junkBlock.length : Int) = 3) ∧
    ∃ ht, createTable 3 junkBlock = some ht ∧ ht.size = 3 ∧
      (ht.table.length : Int) = 3 ∧ ∀ b ∈ ht.table, b = HashNode.null :=
  ⟨by decide, createTable_all_empty 3 junkBlock (by decide) (by decide)⟩

/-- C10: `set` is an unconditional prepend.  On a usable table, with `n` the bucket
index of the key and `head` the chain of bucket `n` before the call, the chain of
bucket `n` after `set(t, k, v)` is the new node `(k, v)` whose `next` is `head`
itself: its entries are `(k, v)` followed by the old entries in the same order, one
more than before, whether or not `head` already holds an entry with key `k`. -/
theorem set_prepends (charSigned : Bool) (ht : HashTable) (k : Key) (v : Int)
    (hu : Usable ht) :
    ∃ (n : Nat) (head : HashNode) (ht2 : HashTable),
      hashFunction charSigned k ht.size = some (n : Int) ∧ ht.table[n]? = some head ∧
      set charSigned ht k v = some ht2 ∧
      ht2.table[n]? = some (HashNode.mk k v head) ∧
      entries (HashNode.mk k v head) = (k, v) :: entries head ∧
      (entries (HashNode.mk k v head)).length = (entries head).length + 1 := by
  obtain ⟨n, head, hn, hlt, hhead, hset⟩ := set_usable charSigned hu k v
  refine ⟨n, head, _, hn, hhead, hset, ?_, rfl, rfl⟩
  simp [List.getElem?_set, hlt]

theorem set_prepends_witness :
    Usable sampleTable ∧
    ∃ (n : Nat) (head : HashNode) (ht2 : HashTable),
      hashFunction true (keyOf "k") sampleTable.size = some (n : Int) ∧
      sampleTable.table[n]? = some head ∧
      set true sampleTable (keyOf "k") 3 = some ht2 ∧
      ht2.table[n]? = some (HashNode.mk (keyOf "k") 3 head) ∧
      entries (HashNode.mk (keyOf "k") 3 head) = (keyOf "k", 3) :: entries head ∧
      (entries (HashNode.mk (keyOf "k") 3 head)).length = (entries head).length + 1 :=
  ⟨by decide, set_prepends true sampleTable (keyOf "k") 3 (by decide)⟩

/-- C11: frame of `set`.  On a usable table `set(t, k, v)` leaves the `size` field
and the number of buckets unchanged, and leaves every bucket other than the one
at index `hashFunction(k, size)` as it was. -/
theorem set_frame (charSigned : Bool) (ht : HashTable) (k : Key) (v : Int)
    (hu : Usable ht) :
    ∃ (n : Nat) (ht2 : HashTable),
      hashFunction charSigned k ht.size = some (n : Int) ∧
      set charSigned ht k v = some ht2 ∧
      ht2.size = ht.size ∧ ht2.table.length = ht.table.length ∧
      ∀ j : Nat, j ≠ n → ht2.table[j]? = ht.table[j]? := by
  obtain ⟨n, head, hn, _, _, hset⟩ := set_usable charSigned hu k v
  refine ⟨n, _, hn, hset, rfl, by simp, ?_⟩
  intro j hj
  have hnj : ¬ n = j := fun h => hj h.symm
  simp [List.getElem?_set, hnj]

theorem set_frame_witness :
    Usable sampleTable ∧
    ∃ (n : Nat) (ht2 : HashTable),
      hashFunction true (keyOf "ab") sampleTable.size = some (n : Int) ∧
      set true sampleTable (keyOf "ab") 3 = some ht2 ∧
      ht2.size = sampleTable.size ∧ ht2.table.length = sampleTable.table.length ∧
      ∀ j : Nat, j ≠ n → ht2.table[j]? = sampleTable.table[j]? :=
  ⟨by decide, set_frame true sampleTable (keyOf "ab") 3 (by decide)⟩

/-- C12: sentinel ambiguity.  On a usable table `get(t, k)` right after
`set(t, k, -1)` gives -1; and for a positive capacity, with `t0` a table reached
from `createTable` by `set` calls none of which used `k`, and `t1` the table after
`set(t0, k, -1)`, the table `t0` holds no entry with key `k`, the table `t1` holds
one, and `get` gives -1 for `k` on both. -/
theorem stored_minus_one_looks_absent (charSigned : Bool) (ht : HashTable) (k : Key)
    (size : Int) (block : List HashNode) (ops : List (Key × Int))
    (hu : Usable ht) (hpos : 0 < size) (hmax : size ≤ INT_MAX)
    (hblock : (block.length : Int) = size) (hk : ∀ p ∈ ops, p.1 ≠ k) :
    (∃ ht2, set charSigned ht k (-1) = some ht2 ∧ get charSigned ht2 k = some (-1)) ∧
    (∃ c0 t0 t1, createTable size block = some c0 ∧ setAll charSigned c0 ops = some t0 ∧
      set charSigned t0 k (-1) = some t1 ∧
      ¬ HoldsKey t0 k ∧ HoldsKey t1 k ∧
      get charSigned t0 k = some (-1) ∧ get charSigned t1 k = some (-1)) := by
  constructor
  · obtain ⟨ht2, hs, _, _, hg⟩ := get_set charSigned hu k (-1)
    exact ⟨ht2, hs, by simp [hg k]⟩
  · have hu0 := usable_fresh hpos hmax
    obtain ⟨t0, hall, hut, _, hget⟩ := setAll_usable charSigned ops hu0
    obtain ⟨t1, hs, _, _, hg1⟩ := get_set charSigned hut k (-1)
    refine ⟨_, t0, t1, createTable_eq size block (le_of_lt hpos) hblock, hall, hs,
      not_holdsKey_setAll charSigned k ops hu0 (not_holdsKey_fresh size k) hk hall,
      holdsKey_set_self charSigned hut k (-1) hs, ?_, by simp [hg1 k]⟩
    rw [hget k, foldl_overwrite_absent k ops _ hk]
    exact get_fresh charSigned hpos hmax k

theorem stored_minus_one_looks_absent_witness :
    (Usable sampleTable ∧ ∀ p ∈ sampleOps, p.1 ≠ keyOf "grape") ∧
    (∃ ht2, set true sampleTable (keyOf "grape") (-1) = some ht2 ∧
      get true ht2 (keyOf "grape") = some (-1)) ∧
    (∃ c0 t0 t1, createTable 3 junkBlock = some c0 ∧ setAll true c0 sampleOps = some t0 ∧
      set true t0 (keyOf "grape") (-1) = some t1 ∧
      ¬ HoldsKey t0 (keyOf "grape") ∧ HoldsKey t1 (keyOf "grape") ∧
      get true t0 (keyOf "grape") = some (-1) ∧ get true t1 (keyOf "grape") = some (-1)) :=
  ⟨⟨by decide, by decide⟩,
   stored_minus_one_looks_absent true sampleTable (keyOf "grape") 3 junkBlock sampleOps
     (by decide) (by decide) (by decide) (by decide) (by decide)⟩

/-- C13: safety under the capacity precondition.  On a table whose size is a
positive `int` and whose bucket array has exactly `size` buckets, for every key
the hash is computed (no division by zero), the index it gives is below `size`
and inside the bucket array, and neither `set` nor `get` ends in an error branch. -/
theorem set_get_defined (charSigned : Bool) (ht : HashTable) (key : Key) (v : Int)
    (hu : Usable ht) :
    ∃ n : Nat, hashFunction charSigned key ht.size = some (n : Int) ∧
      (n : Int) < ht.size ∧ n < ht.table.length ∧
      (∃ head, ht.table[n]? = some head) ∧
      (∃ ht2, set charSigned ht key v = some ht2) ∧
      (∃ r, get charSigned ht key = some r) := by
  obtain ⟨n, head, hn, hlt, hhead, hset⟩ := set_usable charSigned hu key v
  obtain ⟨_, _, _, _, _, hget⟩ := get_usable charSigned hu key
  have hlen := hu.2.2
  exact ⟨n, hn, by omega, hlt, ⟨head, hhead⟩, ⟨_, hset⟩, ⟨_, hget⟩⟩

theorem set_get_defined_witness :
    Usable sampleTable ∧
    ∃ n : Nat, hashFunction true highByteKey sampleTable.size = some (n : Int) ∧
      (n : Int) < sampleTable.size ∧ n < sampleTable.table.length ∧
      (∃ head, sampleTable.table[n]? = some head) ∧
      (∃ ht2, set true sampleTable highByteKey 1 = some ht2) ∧
      (∃ r, get true sampleTable highByteKey = some r) :=
  ⟨by decide, set_get_defined true sampleTable highByteKey 1 (by decide)⟩


/-- C14: teardown.  For every table whose bucket array has `size` buckets, with
any number of entries, `freeTable` runs to its end, and the calls of `free` it
makes are: for every entry of every chain one release of its key copy and one of
its node, nothing else and nothing twice, followed by one release of the bucket
array and one of the table structure. -/
theorem freeTable_releases_each_once (ht : HashTable)
    (hlen : (ht.table.length : Int) = ht.size) :
    ∃ released, freeTable ht = some (released ++ [Freed.buckets, Freed.table]) ∧
      (released ++ [Freed.buckets, Freed.table]).Nodup ∧
      (∀ x, x ∈ released ↔ ∃ j b d, ht.table[j]? = some b ∧ d < (entries b).length ∧
        (x = Freed.key j d ∨ x = Freed.node j d)) ∧
      released.length = 2 * entryCount ht.table := by
  have hn : ht.size.toNat = ht.table.length := by omega
  obtain ⟨tr, htr, hnd, hmem, hcount⟩ :=
    freeBuckets_spec ht.table ht.table.length 0 (by omega)
  refine ⟨tr, ?_, ?_, ?_, ?_⟩
  · simp [freeTable, hn, htr]
  · refine List.nodup_append.2 ⟨hnd, by decide, ?_⟩
    intro x hx1 hx2
    obtain ⟨_, _, _, _, _, _, _, h⟩ := (hmem x).1 hx1
    simp only [List.mem_cons, List.mem_singleton, List.not_mem_nil, or_false] at hx2
    rcases h with h | h <;> rcases hx2 with h2 | h2 <;> subst h <;> cases h2
  · intro x
    rw [hmem]
    constructor
    · rintro ⟨j, b, d, _, _, h3, h4, h5⟩
      exact ⟨j, b, d, h3, h4, h5⟩
    · rintro ⟨j, b, d, h3, h4, h5⟩
      have hj : j < ht.table.length := by
        by_contra hcon
        rw [List.getElem?_eq_none (by omega)] at h3
        cases h3
      exact ⟨j, b, d, Nat.zero_le _, by omega, h3, h4, h5⟩
  · rw [hcount, List.drop_zero, List.take_length]

theorem freeTable_releases_each_once_witness :
    ((sampleTable.table.length : Int) = sampleTable.size) ∧
    freeTable sampleTable =
      some [Freed.key 0 0, Freed.node 0 0, Freed.key 0 1, Freed.node 0 1,
        Freed.buckets, Freed.table] ∧
    ∃ released, freeTable sampleTable = some (released ++ [Freed.buckets, Freed.table]) ∧
      (released ++ [Freed.buckets, Freed.table]).Nodup ∧
      (∀ x, x ∈ released ↔ ∃ j b d, sampleTable.table[j]? = some b ∧
        d < (entries b).length ∧ (x = Freed.key j d ∨ x = Freed.node j d)) ∧
      released.length = 2 * entryCount sampleTable.table :=
  ⟨by decide, by decide, freeTable_releases_each_once sampleTable (by decide)⟩

/-- C15: `get` returns the first match, head to tail.  On a usable table with any
chains, `get(t, k)` is the value of the first entry, from the head, of the chain
of bucket `hashFunction(k, size)` whose key equals `k` byte for byte, and -1 when
that chain has none; any usable table of the same size with the same chain in
that bucket gives the same result, whatever its other buckets hold. -/
theorem get_first_match (charSigned : Bool) (ht : HashTable) (k : Key) (hu : Usable ht) :
    ∃ (n : Nat) (head : HashNode),
      hashFunction charSigned k ht.size = some (n : Int) ∧ ht.table[n]? = some head ∧
      get charSigned ht k = some (firstMatch k (entries head)) ∧
      ∀ other : HashTable, other.size = ht.size → other.table[n]? = some head →
        get charSigned other k = get charSigned ht k := by
  obtain ⟨n, head, hn, _, hhead, hget⟩ := get_usable charSigned hu k
  refine ⟨n, head, hn, hhead, ?_, ?_⟩
  · rw [hget, getLoop_eq_firstMatch]
  · intro other hsize hbucket
    rw [hget]
    simp [get, hsize, hn, hbucket]

theorem get_first_match_witness :
    Usable sampleTable ∧ get true sampleTable (keyOf "k") = some 1 ∧
    ∃ (n : Nat) (head : HashNode),
      hashFunction true (keyOf "k") sampleTable.size = some (n : Int) ∧
      sampleTable.table[n]? = some head ∧
      get true sampleTable (keyOf "k") = some (firstMatch (keyOf "k") (entries head)) ∧
      ∀ other : HashTable, other.size = sampleTable.size → other.table[n]? = some head →
        get true other (keyOf "k") = get true sampleTable (keyOf "k") :=
  ⟨by decide, by decide, get_first_match true sampleTable (keyOf "k") (by decide)⟩

/-- C16: division by zero in hashing.  For a capacity in the range of `int`,
`hashFunction(key, capacity)` has no defined result exactly when the capacity is 0
and the key is not empty; and on a table whose `size` is 0, `set` and `get` have
no defined result for any key that is not empty. -/
theorem hashFunction_undefined_iff (charSigned : Bool) (key : Key) (size : Int)
    (ht : HashTable) (v : Int)
    (hmin : INT_MIN ≤ size) (hmax : size ≤ INT_MAX) (hzero : ht.size = 0) :
    (hashFunction charSigned key size = none ↔ size = 0 ∧ key ≠ []) ∧
    (key ≠ [] → set charSigned ht key v = none ∧ get charSigned ht key = none) := by
  constructor
  · constructor
    · intro hnone
      have hz : toUnsigned size = 0 := by
        by_contra hne
        obtain ⟨r, hr⟩ := hashLoop_defined charSigned hne key 0 0
        rw [hashFunction, hr] at hnone
        cases hnone
      refine ⟨(toUnsigned_eq_zero_iff hmin hmax).1 hz, ?_⟩
      intro hk
      subst hk
      cases hnone
    · rintro ⟨hs, hk⟩
      subst hs
      cases key with
      | nil => exact absurd rfl hk
      | cons c rest => exact hashFunction_zero_size charSigned c rest
  · intro hk
    cases key with
    | nil => exact absurd rfl hk
    | cons c rest =>
      have h := hashFunction_zero_size charSigned c rest
      simp [set, get, hzero, h]

theorem hashFunction_undefined_iff_witness :
    (INT_MIN ≤ (0 : Int) ∧ (0 : Int) ≤ INT_MAX) ∧
    (hashFunction true (keyOf "apple") 0 = none ↔ (0 : Int) = 0 ∧ keyOf "apple" ≠ []) ∧
    (keyOf "apple" ≠ [] →
      set true { size := 0, table := [] } (keyOf "apple") 100 = none ∧
      get true { size := 0, table := [] } (keyOf "apple") = none) :=
  ⟨⟨by decide, by decide⟩,
   hashFunction_undefined_iff true (keyOf "apple") 0 { size := 0, table := [] } 100
     (by decide) (by decide) rfl⟩


/-- C17: position weighting separates anagrams.  The keys "ab" and "ba" hold the
same characters, and with capacity 50 `hashFunction` sends them to different
buckets (48 and 47), under either signedness of `char`; the plain character sum
modulo the capacity gives any two keys with the same characters the same index. -/
theorem position_weight_separates_anagrams :
    (keyOf "ab").Perm (keyOf "ba") ∧
    hashFunction true (keyOf "ab") 50 = some 48 ∧ hashFunction true (keyOf "ba") 50 = some 47 ∧
    hashFunction false (keyOf "ab") 50 = some 48 ∧ hashFunction false (keyOf "ba") 50 = some 47 ∧
    ∀ (charSigned : Bool) (k1 k2 : Key) (capacity : Int), k1.Perm k2 →
      plainSum charSigned k1 capacity = plainSum charSigned k2 capacity := by
  refine ⟨List.Perm.swap _ _ _, by decide, by decide, by decide, by decide, ?_⟩
  intro charSigned k1 k2 capacity hperm
  rw [plainSum_eq, plainSum_eq, (hperm.map (charValue charSigned)).sum_eq]

theorem position_weight_separates_anagrams_witness :
    (keyOf "ab").Perm (keyOf "ba") ∧
    plainSum true (keyOf "ab") 50 = plainSum true (keyOf "ba") 50 ∧
    plainSum true (keyOf "ab") 50 = 45 :=
  ⟨position_weight_separates_anagrams.1,
   position_weight_separates_anagrams.2.2.2.2.2 true (keyOf "ab") (keyOf "ba") 50
     position_weight_separates_anagrams.1,
   by decide⟩

/-- C18: the first character never affects the hash.  For every capacity that is a
positive `int`, two keys that differ only in their first character have the same
hash, and every key of one character hashes to 0, as the empty key does. -/
theorem first_char_ignored (charSigned : Bool) (c1 c2 : CChar) (rest : Key) (size : Int)
    (hpos : 0 < size) (hmax : size ≤ INT_MAX) :
    hashFunction charSigned (c1 :: rest) size = hashFunction charSigned (c2 :: rest) size ∧
    hashFunction charSigned [c1] size = some 0 ∧
    hashFunction charSigned [] size = some 0 := by
  refine ⟨?_, ?_, rfl⟩
  · rw [hashFunction_cons charSigned c1 rest hpos hmax,
      hashFunction_cons charSigned c2 rest hpos hmax]
  · rw [hashFunction_cons charSigned c1 [] hpos hmax]
    rfl

theorem first_char_ignored_witness :
    ((0 : Int) < 50 ∧ (50 : Int) ≤ INT_MAX) ∧
    hashFunction true (⟨97, by decide⟩ :: keyOf "pple") 50
      = hashFunction true (⟨200, by decide⟩ :: keyOf "pple") 50 ∧
    hashFunction true [⟨97, by decide⟩] 50 = some 0 ∧
    hashFunction true [] 50 = some 0 :=
  ⟨⟨by decide, by decide⟩,
   first_char_ignored true ⟨97, by decide⟩ ⟨200, by decide⟩ (keyOf "pple") 50
     (by decide) (by decide)⟩

/-- C19: no 32-bit wrap-around for ASCII keys.  For every capacity in `1 .. 2^31 - 1`
and every key of length `L` whose bytes are all in `1..127`, with
`127 * (L - 1) ≤ 2^31 - 1`, every machine operation of the loop of `hashFunction`
gives its exact result (nothing wraps), and `hashFunction(key, capacity)` is the
sum over `i` of `key[i] * i`, modulo the capacity, in exact integer arithmetic. -/
theorem hashFunction_ascii_exact (charSigned : Bool) (key : Key) (size : Int)
    (hpos : 0 < size) (hmax : size ≤ INT_MAX) (hascii : ∀ c ∈ key, c.val ≤ 127)
    (hlen : 127 * ((key.length : Int) - 1) ≤ INT_MAX) :
    NoWrap charSigned size key 0 0 ∧
    hashFunction charSigned key size = some (weightedSum key % size) := by
  have h := hashLoop_ascii charSigned hpos hmax key 0 0 (le_refl 0) hpos hascii
    (by simpa using hlen)
  simpa [hashFunction, weightedSum] using h

theorem hashFunction_ascii_exact_witness :
    (∀ c ∈ keyOf "orange", c.val ≤ 127) ∧
    weightedSum (keyOf "orange") = 1555 ∧
    NoWrap true 50 (keyOf "orange") 0 0 ∧
    hashFunction true (keyOf "orange") 50 = some (weightedSum (keyOf "orange") % 50) :=
  ⟨by decide, by decide,
   hashFunction_ascii_exact true (keyOf "orange") 50 (by decide) (by decide) (by decide)
     (by decide)⟩


end Study
